import Mathlib

/-!
Verification of the text-to-audiobook pipeline in `doc_to_audio.py`.

Strings are modelled as `List Char`.  The pure pipeline functions
(`clean_and_prepare_text`, `_get_text_chunks`) are translated directly from
the Python source.  The effectful functions (`_convert_chunk_to_audio`,
`convert_text_to_mp3_chunked`) are translated by injecting the behaviour of
the external gTTS service as a function argument (per chunk, per attempt)
and by making their observable effects explicit: the number of synthesis
attempts, the sequence of backoff sleeps, the skip warnings, and the
accumulated audio.  Audio segments (pydub `AudioSegment`) are modelled as
lists of samples; a segment's duration is its length, and its Python
truthiness is `length != 0` (pydub defines `__len__`, not `__bool__`).
-/

namespace DocToAudio

/-- Whitespace class used by Python's `str.strip()` and the regex class
`\s` in `re.sub(r'\n\s*\n', '\n', text)`.  The ASCII whitespace characters
are modelled; the additional Unicode whitespace code points accepted by
Python are elided (no claim depends on them). -/
def isSpace (c : Char) : Bool :=
  c = ' ' || c = '\t' || c = '\n' || c = '\r' || c = '\x0b' || c = '\x0c'

/-- Character class `[-=_*]` of the decorative-run regex in step 1 of
`clean_and_prepare_text` (line 49: `re.sub(r'[-=_*]{3,}', '', text)`).
Note that the source's class contains the underscore. -/
def isDeco (c : Char) : Bool :=
  c = '-' || c = '=' || c = '_' || c = '*'

/-- Step 1 of `clean_and_prepare_text` (line 49):
`text = re.sub(r'[-=_*]{3,}', '', text)`.
`re.sub` deletes the leftmost, non-overlapping, greedy matches of
`[-=_*]{3,}`, i.e. every maximal run of 3 or more characters of the class
`isDeco`; shorter runs and all other characters are kept. -/
def stripRuns : List Char → List Char
  | [] => []
  | c :: rest =>
    if isDeco c then
      if (rest.takeWhile isDeco).length + 1 ≥ 3 then stripRuns (rest.dropWhile isDeco)
      else c :: (rest.takeWhile isDeco ++ stripRuns (rest.dropWhile isDeco))
    else c :: stripRuns rest
termination_by l => l.length
decreasing_by
  · have : (rest.dropWhile isDeco).length ≤ rest.length :=
      (List.dropWhile_suffix isDeco).length_le
    simp only [List.length_cons]; omega
  · have : (rest.dropWhile isDeco).length ≤ rest.length :=
      (List.dropWhile_suffix isDeco).length_le
    simp only [List.length_cons]; omega
  · simp only [List.length_cons]; omega

/-- Helper for `collapseNl`: given a list, return the part after its last
`'\n'`, or `none` if it contains no `'\n'`. -/
def dropToLastNl : List Char → Option (List Char)
  | [] => none
  | c :: rest =>
    match dropToLastNl rest with
    | some r => some r
    | none => if c = '\n' then some rest else none

/-- Step 2 of `clean_and_prepare_text` (line 52):
`text = re.sub(r'\n\s*\n', '\n', text)`.
A match starts at a `'\n'`; the greedy `\s*` extends through whitespace to
the last `'\n'` inside the maximal whitespace run following the starting
newline; the whole match is replaced by a single `'\n'` and scanning
resumes after it.  If the whitespace run after a `'\n'` contains no
further `'\n'`, there is no match at that position. -/
def collapseNl : List Char → List Char
  | [] => []
  | c :: rest =>
    if c = '\n' then
      match hm : dropToLastNl (rest.takeWhile isSpace) with
      | some w2 => '\n' :: collapseNl (w2 ++ rest.dropWhile isSpace)
      | none => '\n' :: collapseNl rest
    else c :: collapseNl rest
termination_by l => l.length
decreasing_by
  · have hlen := congrArg List.length
      (List.takeWhile_append_dropWhile (p := isSpace) (l := rest))
    rw [List.length_append] at hlen
    have hr : ∀ l r, dropToLastNl l = some r → r.length < l.length := by
      intro l
      induction l with
      | nil => intro r h; simp [dropToLastNl] at h
      | cons a t ih =>
        intro r h
        simp only [dropToLastNl] at h
        cases hd : dropToLastNl t with
        | some s =>
          rw [hd] at h
          injection h with h
          subst h
          have := ih s hd
          simp only [List.length_cons]; omega
        | none =>
          rw [hd] at h
          by_cases ha : a = '\n'
          · simp only [ha, if_pos] at h
            injection h with h
            subst h
            simp
          · simp [ha] at h
    have := hr _ _ hm
    simp only [List.length_append, List.length_cons]; omega
  · simp only [List.length_cons]; omega
  · simp only [List.length_cons]; omega

/-- Step 3 of `clean_and_prepare_text` (line 55):
`text = text.replace('\n', ' ')`. -/
def replaceNl (l : List Char) : List Char :=
  l.map fun c => if c = '\n' then ' ' else c

/-- Function `clean_and_prepare_text` (lines 42-57): step 1 removes long
decorative runs, step 2 collapses blank-line paragraph breaks to single
newlines, step 3 replaces every remaining newline by a space. -/
def clean_and_prepare_text (text : List Char) : List Char :=
  replaceNl (collapseNl (stripRuns text))

/-- Python `text.split('\n')`: split at every `'\n'`, keeping empty
pieces (`"".split('\n') == ['']`). -/
def splitOnNl : List Char → List (List Char)
  | [] => [[]]
  | c :: rest =>
    if c = '\n' then [] :: splitOnNl rest
    else
      match splitOnNl rest with
      | [] => [[c]]
      | p :: ps => (c :: p) :: ps

/-- Python `s.strip()`: remove leading and trailing whitespace. -/
def pstrip (l : List Char) : List Char :=
  ((l.dropWhile isSpace).reverse.dropWhile isSpace).reverse

/-- Line 65 of `_get_text_chunks`:
`paragraphs = [p.strip() for p in text.split('\n') if p.strip()]`. -/
def textParagraphs (text : List Char) : List (List Char) :=
  ((splitOnNl text).map pstrip).filter fun p => !p.isEmpty

/-- Lines 71-72 of `_get_text_chunks`, the hard split of an oversized
paragraph:
`for i in range(0, len(para), max_chunk_size): chunks.append(para[i:i + max_chunk_size])`.
For `1 ≤ M` this yields the consecutive `M`-sized slices of `para`
(Python raises `ValueError` for step `M = 0`, so `M ≥ 1` is assumed
wherever this function is related to the source). -/
def sliceChunks (M : Nat) : List Char → List (List Char)
  | [] => []
  | c :: rest => (c :: rest.take (M - 1)) :: sliceChunks M (rest.drop (M - 1))
termination_by l => l.length
decreasing_by
  simp only [List.length_cons, List.length_drop]; omega

/-- Lines 66-72 of `_get_text_chunks`: the chunks contributed by one
paragraph — the paragraph itself if it fits, otherwise its hard split. -/
def chunksOfPara (M : Nat) (para : List Char) : List (List Char) :=
  if para.length ≤ M then [para] else sliceChunks M para

/-- Function `_get_text_chunks` (lines 59-73) with its default
`max_chunk_size = 3000`. -/
def _get_text_chunks (text : List Char) (M : Nat := 3000) : List (List Char) :=
  (textParagraphs text).flatMap (chunksOfPara M)

/-- Outcome of one gTTS synthesis-plus-decode attempt for a chunk, as seen
by the `try` block of `_convert_chunk_to_audio` (lines 83-88): either a
decoded audio segment, or a `requests.exceptions.HTTPError` carrying a
status code. -/
inductive TtsOutcome where
  | success (seg : List Nat)
  | httpError (status : Nat)
deriving DecidableEq

/-- How `_convert_chunk_to_audio` finishes: it returns a decoded segment
(line 88), returns `None` after exhausting its retries (line 96), or lets
a non-429 `HTTPError` propagate (line 95). -/
inductive SynthResult where
  | ok (seg : List Nat)
  | failed
  | raised (status : Nat)
deriving DecidableEq

/-- Observable behaviour of one `_convert_chunk_to_audio` call: how it
finished, how many gTTS attempts were issued, and the argument of each
`time.sleep(delay)` executed, in order. -/
structure ConvRes where
  result : SynthResult
  attempts : Nat
  waits : List Nat
deriving DecidableEq

/-- Loop of `_convert_chunk_to_audio` (lines 82-96), unrolled over the
number of remaining iterations of `for attempt in range(retries)`.
`f` gives the outcome of the gTTS call of each attempt (0-indexed).
On a 429 the code warns, sleeps `delay`, doubles `delay` and continues;
any other `HTTPError` is re-raised; when the loop ends, `None` is
returned. -/
def convAux (f : Nat → TtsOutcome) : Nat → Nat → Nat → ConvRes
  | 0, _, _ => ⟨.failed, 0, []⟩
  | remaining + 1, attempt, delay =>
    match f attempt with
    | .success seg => ⟨.ok seg, 1, []⟩
    | .httpError s =>
      if s = 429 then
        let r := convAux f remaining (attempt + 1) (delay * 2)
        ⟨r.result, r.attempts + 1, delay :: r.waits⟩
      else ⟨.raised s, 1, []⟩

/-- Function `_convert_chunk_to_audio` (lines 75-96): `retries = 3`,
initial `delay = 5`. -/
def _convert_chunk_to_audio (f : Nat → TtsOutcome) : ConvRes :=
  convAux f 3 0 5

/-- Observable result of `convert_text_to_mp3_chunked`: the concatenated
audio samples of `combined_audio`, and the chunk lengths reported by the
`st.warning(f"Skipping a chunk of {len(chunk)} characters ...")` calls,
in order. -/
structure ConvertOut where
  audio : List Nat
  skips : List Nat
deriving DecidableEq

/-- Segment returned by a `_convert_chunk_to_audio` call, if any. -/
def okSeg (r : ConvRes) : Option (List Nat) :=
  match r.result with
  | .ok seg => some seg
  | _ => none

/-- Loop of `convert_text_to_mp3_chunked` (lines 112-119), over the chunk
list.  `f` gives, per chunk and per attempt, the outcome of the gTTS call.
`if chunk_audio:` tests Python truthiness: `None` is falsy and an
`AudioSegment` is truthy iff its length is nonzero, so a returned
zero-length segment takes the skip-warning branch.  A `raised` synthesis
error propagates out of the loop (there is no `try` around it). -/
def assembleChunks (f : List Char → Nat → TtsOutcome) :
    List (List Char) → Except Nat ConvertOut
  | [] => .ok ⟨[], []⟩
  | chunk :: rest =>
    match ( _convert_chunk_to_audio (f chunk)).result with
    | .raised s => .error s
    | .ok seg =>
      if seg.length ≠ 0 then
        (assembleChunks f rest).map fun o => ⟨seg ++ o.audio, o.skips⟩
      else
        (assembleChunks f rest).map fun o => ⟨o.audio, chunk.length :: o.skips⟩
    | .failed =>
      (assembleChunks f rest).map fun o => ⟨o.audio, chunk.length :: o.skips⟩

/-- Function `convert_text_to_mp3_chunked` (lines 98-126):
`if not text.strip(): return None`, then chunk with the default maximum
3000 and run the assembly loop. -/
def convert_text_to_mp3_chunked (f : List Char → Nat → TtsOutcome)
    (text : List Char) : Except Nat (Option ConvertOut) :=
  if (pstrip text).isEmpty then .ok none
  else (assembleChunks f (_get_text_chunks text)).map some

/-- Decomposition of a character list into the maximal runs of `isDeco`
characters and singleton groups of all other characters (in order);
used to state what step 1 of the normalizer removes. -/
def decoRuns : List Char → List (List Char)
  | [] => []
  | c :: rest =>
    if isDeco c then (c :: rest.takeWhile isDeco) :: decoRuns (rest.dropWhile isDeco)
    else [c] :: decoRuns rest
termination_by l => l.length
decreasing_by
  · have : (rest.dropWhile isDeco).length ≤ rest.length :=
      (List.dropWhile_suffix isDeco).length_le
    simp only [List.length_cons]; omega
  · simp only [List.length_cons]; omega

/-- Decides that a list, preceded by `k` pending decorative characters,
contains no run of 3 or more consecutive `isDeco` characters. -/
def okFrom (k : Nat) : List Char → Bool
  | [] => true
  | c :: rest =>
    if isDeco c then decide (k + 1 < 3) && okFrom (k + 1) rest
    else okFrom 0 rest

/-! Helper lemmas about the chunk splitter. -/

theorem sliceChunks_flatten (M : Nat) (l : List Char) : (sliceChunks M l).flatten = l := by
  induction l using sliceChunks.induct M with
  | case1 => simp [sliceChunks]
  | case2 c rest ih => rw [sliceChunks]; simp [ih]

theorem chunksOfPara_flatten (M : Nat) (p : List Char) : (chunksOfPara M p).flatten = p := by
  unfold chunksOfPara
  split
  · simp
  · exact sliceChunks_flatten M p

theorem sliceChunks_length_le (M : Nat) (hM : 1 ≤ M) (l : List Char) :
    ∀ c ∈ sliceChunks M l, c.length ≤ M := by
  induction l using sliceChunks.induct M with
  | case1 => simp [sliceChunks]
  | case2 c rest ih =>
    intro x hx
    rw [sliceChunks] at hx
    rcases List.mem_cons.mp hx with h | h
    · subst h
      have := List.length_take_le (M - 1) rest
      simp only [List.length_cons]
      omega
    · exact ih x h

theorem sliceChunks_eq_nil_iff (M : Nat) (l : List Char) : sliceChunks M l = [] ↔ l = [] := by
  cases l <;> simp [sliceChunks]

theorem sliceChunks_init_length (M : Nat) (hM : 1 ≤ M) (l : List Char) :
    ∀ i slice, (sliceChunks M l)[i]? = some slice →
      i + 1 < (sliceChunks M l).length → slice.length = M := by
  induction l using sliceChunks.induct M with
  | case1 => intro i slice hs h; rw [sliceChunks] at hs; simp at hs
  | case2 c rest ih =>
    intro i slice hs h
    rw [sliceChunks] at hs h
    simp only [List.length_cons] at h
    cases i with
    | zero =>
      rw [List.getElem?_cons_zero] at hs
      injection hs with hs
      subst hs
      have hne : rest.drop (M - 1) ≠ [] := by
        intro hnil
        rw [(sliceChunks_eq_nil_iff M _).mpr hnil] at h
        simp at h
      have hlen : M - 1 < rest.length := by
        rcases Nat.lt_or_ge (M - 1) rest.length with hl | hl
        · exact hl
        · exact absurd (List.drop_eq_nil_iff.mpr hl) hne
      simp only [List.length_cons, List.length_take]
      omega
    | succ i =>
      rw [List.getElem?_cons_succ] at hs
      exact ih i slice hs (by omega)

/-- C1: for every input text and every maximum chunk size `M ≥ 1` (the
default is 3000), every chunk produced by `_get_text_chunks text M` has
length at most `M`; a paragraph longer than `M` is covered by the
consecutive `M`-sized slices `sliceChunks M para` (each of which is a
produced chunk, and their concatenation is the whole paragraph), where
every slice except possibly the final one has length exactly `M`. -/
theorem get_text_chunks_size_bound (text : List Char) (M : Nat) (hM : 1 ≤ M) :
    (∀ c ∈ _get_text_chunks text M, c.length ≤ M) ∧
    ∀ para ∈ textParagraphs text, M < para.length →
      (sliceChunks M para).flatten = para ∧
      (∀ c ∈ sliceChunks M para, c ∈ _get_text_chunks text M) ∧
      ∀ i slice, (sliceChunks M para)[i]? = some slice →
        i + 1 < (sliceChunks M para).length → slice.length = M := by
  constructor
  · intro c hc
    rw [_get_text_chunks, List.mem_flatMap] at hc
    obtain ⟨p, hp, hcp⟩ := hc
    rw [chunksOfPara] at hcp
    split at hcp
    · next hle => rw [List.mem_singleton] at hcp; subst hcp; exact hle
    · exact sliceChunks_length_le M hM p c hcp
  · intro para hp hlt
    refine ⟨sliceChunks_flatten M para, ?_, sliceChunks_init_length M hM para⟩
    intro c hc
    rw [_get_text_chunks, List.mem_flatMap]
    exact ⟨para, hp, by rw [chunksOfPara, if_neg (by omega)]; exact hc⟩

/-- C1 witness: with `text = "a\nb"` and `M = 1`, the chunk `"b"` is
produced and obeys the size bound. -/
theorem get_text_chunks_size_bound_witness :
    (1 : Nat) ≤ 1 ∧ (['b'] : List Char).length ≤ 1 :=
  ⟨Nat.le_refl 1,
    (get_text_chunks_size_bound ['a', '\n', 'b'] 1 (Nat.le_refl 1)).1 ['b'] (by decide)⟩

/-- C9 counterexample: on the input `" a"` (with `M = 3000`) the splitter
produces the single chunk `"a"`; since there is only one chunk, no
separators are reinserted, and the re-assembled text `"a"` differs from
the input `" a"` — the stripped leading space is lost, so chunking does
not reconstruct the input exactly. -/
theorem chunking_not_lossless :
    _get_text_chunks [' ', 'a'] 3000 = [['a']] ∧ (['a'] : List Char) ≠ [' ', 'a'] := by
  constructor
  · decide
  · decide

/-- C9 amended: chunking is lossless up to the splitter's own paragraph
normalization: for `M ≥ 1`, concatenating all produced chunks yields the
concatenation of the stripped nonempty paragraphs of the input, and
re-inserting one `'\n'` separator between the chunk groups of different
paragraphs reconstructs the `'\n'`-joined stripped nonempty paragraphs
(rather than the raw input, whose paragraph-edge whitespace and empty
paragraphs are discarded). -/
theorem chunking_lossless_modulo_strip (text : List Char) (M : Nat) (hM : 1 ≤ M) :
    (_get_text_chunks text M).flatten = (textParagraphs text).flatten ∧
    List.intercalate ['\n'] ((textParagraphs text).map fun p => (chunksOfPara M p).flatten)
      = List.intercalate ['\n'] (textParagraphs text) := by
  constructor
  · rw [_get_text_chunks]
    induction textParagraphs text with
    | nil => simp
    | cons p ps ih => simp [List.flatMap_cons, ih, chunksOfPara_flatten]
  · have hmap : (textParagraphs text).map (fun p => (chunksOfPara M p).flatten)
        = (textParagraphs text).map id :=
      List.map_congr_left fun p _ => chunksOfPara_flatten M p
    rw [hmap, List.map_id]

/-- C9 amended witness: instantiated at `text = "a"` and `M = 1`. -/
theorem chunking_lossless_modulo_strip_witness :
    (1 : Nat) ≤ 1 ∧ (_get_text_chunks ['a'] 1).flatten = (textParagraphs ['a']).flatten :=
  ⟨Nat.le_refl 1, (chunking_lossless_modulo_strip ['a'] 1 (Nat.le_refl 1)).1⟩

/-! Retry/backoff behaviour of `_convert_chunk_to_audio`. -/

/-- C2: if every synthesis attempt fails with HTTP 429,
`_convert_chunk_to_audio` makes exactly 3 attempts, sleeping 5, 10 and 20
time units, and then returns the failure value `None`; it terminates with
no further retry. -/
theorem retry_exhaustion (f : Nat → TtsOutcome) (h : ∀ i < 3, f i = .httpError 429) :
    _convert_chunk_to_audio f = ⟨.failed, 3, [5, 10, 20]⟩ := by
  have h0 := h 0 (by omega)
  have h1 := h 1 (by omega)
  have h2 := h 2 (by omega)
  simp [_convert_chunk_to_audio, convAux, h0, h1, h2]

/-- C2 witness: a stub service that always rate-limits. -/
theorem retry_exhaustion_witness :
    _convert_chunk_to_audio (fun _ => TtsOutcome.httpError 429) = ⟨.failed, 3, [5, 10, 20]⟩ :=
  retry_exhaustion (fun _ => TtsOutcome.httpError 429) (by decide)

/-- C3: if the first two synthesis attempts fail with HTTP 429 and the
third succeeds, `_convert_chunk_to_audio` issues exactly 3 attempts,
waits backoff delays of 5 then 10 time units before the second and third
attempts, and returns the decoded segment. -/
theorem retry_backoff_then_success (f : Nat → TtsOutcome) (seg : List Nat)
    (h0 : f 0 = .httpError 429) (h1 : f 1 = .httpError 429)
    (h2 : f 2 = .success seg) :
    _convert_chunk_to_audio f = ⟨.ok seg, 3, [5, 10]⟩ := by
  simp [_convert_chunk_to_audio, convAux, h0, h1, h2]

/-- C3 witness: a stub that rate-limits twice, then succeeds. -/
theorem retry_backoff_then_success_witness :
    _convert_chunk_to_audio
        (fun i => if i < 2 then TtsOutcome.httpError 429 else TtsOutcome.success [7])
      = ⟨.ok [7], 3, [5, 10]⟩ :=
  retry_backoff_then_success _ [7] (by decide) (by decide) (by decide)

/-- C4: if attempt `k` (after `k` rate-limited attempts, `k < 3`) fails
with an HTTP error whose status is not 429, `_convert_chunk_to_audio`
re-raises that error at once: exactly `k + 1` attempts are issued, and
the sleeps performed are only the `k` backoffs of the earlier
rate-limits — no backoff wait occurs in response to the non-429 error. -/
theorem non_429_raises (f : Nat → TtsOutcome) (s k : Nat) (hk : k < 3)
    (hpre : ∀ i < k, f i = .httpError 429) (hs : f k = .httpError s)
    (hne : s ≠ 429) :
    _convert_chunk_to_audio f
      = ⟨.raised s, k + 1, (List.range k).map fun i => 5 * 2 ^ i⟩ := by
  interval_cases k
  · simp [_convert_chunk_to_audio, convAux, hs, hne]
  · have h0 := hpre 0 (by omega)
    simp [_convert_chunk_to_audio, convAux, h0, hs, hne, List.range_succ]
  · have h0 := hpre 0 (by omega)
    have h1 := hpre 1 (by omega)
    simp [_convert_chunk_to_audio, convAux, h0, h1, hs, hne, List.range_succ]

/-- C4 witness: a stub that fails with HTTP 500 on the first attempt. -/
theorem non_429_raises_witness :
    _convert_chunk_to_audio (fun _ => TtsOutcome.httpError 500)
      = ⟨.raised 500, 0 + 1, (List.range 0).map fun i => 5 * 2 ^ i⟩ :=
  non_429_raises (fun _ => TtsOutcome.httpError 500) 500 0 (by decide) (by decide)
    (by decide) (by decide)

/-! Assembly of the audiobook. -/

theorem assembleChunks_ok_audio (f : List Char → Nat → TtsOutcome) :
    ∀ (cs : List (List Char)) (out : ConvertOut), assembleChunks f cs = .ok out →
      out.audio = (cs.filterMap fun c => okSeg (_convert_chunk_to_audio (f c))).flatten := by
  intro cs
  induction cs with
  | nil =>
    intro out h
    rw [assembleChunks] at h
    injection h with h
    subst h
    simp
  | cons c rest ih =>
    intro out h
    rw [assembleChunks] at h
    cases hr : (_convert_chunk_to_audio (f c)).result with
    | raised s =>
      rw [hr] at h
      cases h
    | ok seg =>
      rw [hr] at h
      simp only at h
      cases hrec : assembleChunks f rest with
      | error e =>
        rw [hrec] at h
        by_cases hz : seg.length ≠ 0 <;> simp [hz, Except.map] at h
      | ok o =>
        rw [hrec] at h
        by_cases hz : seg.length ≠ 0
        · rw [if_pos hz] at h
          simp only [Except.map] at h
          injection h with h
          subst h
          simp [List.filterMap_cons, okSeg, hr, ih o hrec]
        · rw [if_neg hz] at h
          simp only [Except.map] at h
          injection h with h
          subst h
          push_neg at hz
          rw [List.length_eq_zero] at hz
          subst hz
          simp [List.filterMap_cons, okSeg, hr, ih o hrec]
    | failed =>
      rw [hr] at h
      simp only at h
      cases hrec : assembleChunks f rest with
      | error e =>
        rw [hrec] at h
        simp [Except.map] at h
      | ok o =>
        rw [hrec] at h
        simp only [Except.map] at h
        injection h with h
        subst h
        simp [List.filterMap_cons, okSeg, hr, ih o hrec]

/-- C5: whenever `convert_text_to_mp3_chunked` completes (no synthesis
error is raised), the assembled audio equals the concatenation, in chunk
order, of exactly the segments returned by successful syntheses; a chunk
whose synthesis returned the failure value contributes nothing (it is
filtered out, not padded), and its failure does not prevent the segments
of the remaining chunks from being assembled. -/
theorem assembly_order (f : List Char → Nat → TtsOutcome) (text : List Char)
    (out : ConvertOut) (h : convert_text_to_mp3_chunked f text = .ok (some out)) :
    out.audio = ((_get_text_chunks text).filterMap fun c =>
      okSeg (_convert_chunk_to_audio (f c))).flatten := by
  rw [convert_text_to_mp3_chunked] at h
  split at h
  · cases h
  · cases hrec : assembleChunks f (_get_text_chunks text) with
    | error e =>
      rw [hrec] at h
      simp [Except.map] at h
    | ok o =>
      rw [hrec] at h
      simp only [Except.map] at h
      injection h with h
      injection h with h
      subst h
      exact assembleChunks_ok_audio f _ o hrec

/-- C5 witness: three chunks `"a"`, `"b"`, `"c"` where the synthesis of
`"b"` always rate-limits (permanent failure) and the others return the
one-sample segment `[1]`: the audiobook is `[1] ++ [1]`, the failed chunk
is omitted, and the chunk after the failure is still processed. -/
theorem assembly_order_witness :
    (ConvertOut.mk [1, 1] [1]).audio
      = ((_get_text_chunks ['a', '\n', 'b', '\n', 'c']).filterMap fun c =>
          okSeg (_convert_chunk_to_audio
            ((fun c _ => if c = ['b'] then TtsOutcome.httpError 429
              else TtsOutcome.success [1]) c))).flatten :=
  assembly_order
    (fun c _ => if c = ['b'] then TtsOutcome.httpError 429 else TtsOutcome.success [1])
    ['a', '\n', 'b', '\n', 'c'] ⟨[1, 1], [1]⟩ rfl

/-- C10: if the synthesis of a chunk succeeds but returns a segment of
zero duration, the assembly loop of `convert_text_to_mp3_chunked` treats
that chunk exactly as a permanently failed one, because `if chunk_audio:`
tests truthiness (nonzero duration) rather than is-not-None: the segment
is not appended to the audiobook and the skip warning for the chunk is
emitted. -/
theorem zero_duration_chunk_skipped (f : List Char → Nat → TtsOutcome)
    (chunk : List Char) (rest : List (List Char))
    (hz : (_convert_chunk_to_audio (f chunk)).result = .ok []) :
    assembleChunks f (chunk :: rest)
      = (assembleChunks f rest).map fun o => ⟨o.audio, chunk.length :: o.skips⟩ := by
  rw [assembleChunks, hz]
  simp

/-- C10 witness: a stub whose synthesis succeeds with an empty (zero
duration) segment on chunk `"a"`. -/
theorem zero_duration_chunk_skipped_witness :
    assembleChunks (fun _ _ => TtsOutcome.success []) [['a']]
      = (assembleChunks (fun _ _ => TtsOutcome.success []) []).map
          fun o => ⟨o.audio, (['a'] : List Char).length :: o.skips⟩ :=
  zero_duration_chunk_skipped (fun _ _ => TtsOutcome.success []) ['a'] [] rfl

/-! Normalizer lemmas. -/

theorem replaceNl_no_nl (l : List Char) : '\n' ∉ replaceNl l := by
  intro h
  rw [replaceNl, List.mem_map] at h
  obtain ⟨c, _, hc⟩ := h
  by_cases h' : c = '\n'
  · rw [if_pos h'] at hc
    exact absurd hc (by decide)
  · rw [if_neg h'] at hc
    exact h' hc

/-- C8: for every input, the output of `clean_and_prepare_text` contains
no newline character: step 3 replaces every newline surviving step 2 with
a space, so all paragraph boundaries are erased from the normalized
text. -/
theorem clean_output_has_no_newline (text : List Char) :
    '\n' ∉ clean_and_prepare_text text :=
  replaceNl_no_nl _

theorem okFrom_mono {l : List Char} :
    ∀ {k k' : Nat}, k' ≤ k → okFrom k l = true → okFrom k' l = true := by
  induction l with
  | nil => intro k k' _ _; rfl
  | cons c rest ih =>
    intro k k' hkk h
    by_cases hc : isDeco c
    · simp only [okFrom, hc, if_true, Bool.and_eq_true, decide_eq_true_eq] at h ⊢
      exact ⟨by omega, ih (by omega) h.2⟩
    · simp only [okFrom, hc] at h ⊢
      simpa using h

theorem okFrom_tail_suffix :
    ∀ {l₂ l₁ : List Char} {k : Nat}, l₁ <:+ l₂ → okFrom k l₂ = true →
      okFrom 0 l₁ = true := by
  intro l₂
  induction l₂ with
  | nil =>
    intro l₁ k h hk
    rw [List.suffix_nil] at h
    subst h
    rfl
  | cons c rest ih =>
    intro l₁ k h hk
    rcases List.suffix_cons_iff.mp h with h | h
    · subst h
      exact okFrom_mono (Nat.zero_le k) hk
    · by_cases hc : isDeco c
      · have h2 : okFrom (k + 1) rest = true := by
          simp [okFrom, hc] at hk
          exact hk.2
        exact ih h h2
      · have h2 : okFrom 0 rest = true := by
          simpa [okFrom, hc] using hk
        exact ih h h2

theorem okFrom_irrel_of_head {X : List Char} (k : Nat)
    (h : ∀ d, X.head? = some d → isDeco d = false) : okFrom k X = okFrom 0 X := by
  cases X with
  | nil => rfl
  | cons c rest =>
    have hc := h c rfl
    simp [okFrom, hc]

theorem stripRuns_head_not_deco {l : List Char}
    (hl : ∀ d, l.head? = some d → isDeco d = false) :
    ∀ d, (stripRuns l).head? = some d → isDeco d = false := by
  intro d hd
  cases l with
  | nil => rw [stripRuns] at hd; cases hd
  | cons c rest =>
    have hc := hl c rfl
    rw [stripRuns, if_neg (by simp [hc])] at hd
    rw [List.head?_cons] at hd
    injection hd with hd
    subst hd
    exact hc

theorem head_dropWhile_deco (l : List Char) :
    ∀ d, (l.dropWhile isDeco).head? = some d → isDeco d = false := by
  induction l with
  | nil => intro d hd; cases hd
  | cons c rest ih =>
    intro d hd
    by_cases hc : isDeco c
    · rw [List.dropWhile_cons_of_pos hc] at hd
      exact ih d hd
    · rw [List.dropWhile_cons_of_neg hc, List.head?_cons] at hd
      injection hd with hd
      subst hd
      simpa using hc

theorem stripRuns_ok : ∀ l : List Char, okFrom 0 (stripRuns l) = true := by
  intro l
  induction l using stripRuns.induct with
  | case1 => rw [stripRuns]; rfl
  | case2 c rest hc hge ih =>
    rw [stripRuns, if_pos hc, if_pos hge]
    exact ih
  | case3 c rest hc hlt ih =>
    rw [stripRuns, if_pos hc, if_neg hlt]
    have hirrel : ∀ k, okFrom k (stripRuns (rest.dropWhile isDeco))
        = okFrom 0 (stripRuns (rest.dropWhile isDeco)) := fun k =>
      okFrom_irrel_of_head k (stripRuns_head_not_deco (head_dropWhile_deco rest))
    cases hrun : rest.takeWhile isDeco with
    | nil =>
      simp only [List.nil_append]
      simp only [okFrom, hc, if_true]
      rw [hirrel 1]
      simpa using ih
    | cons d t =>
      cases t with
      | nil =>
        have hd : isDeco d = true :=
          List.mem_takeWhile_imp (by rw [hrun]; exact List.mem_singleton_self d)
        simp only [List.cons_append, List.nil_append]
        simp only [okFrom, hc, hd, if_true]
        rw [hirrel 2]
        simpa using ih
      | cons e t' =>
        exfalso
        rw [hrun] at hlt
        simp at hlt
  | case4 c rest hc ih =>
    rw [stripRuns, if_neg hc]
    simpa [okFrom, hc] using ih

theorem dropToLastNl_decomp :
    ∀ {l r : List Char}, dropToLastNl l = some r → ∃ l₁, l = l₁ ++ '\n' :: r := by
  intro l
  induction l with
  | nil => intro r h; cases h
  | cons a t ih =>
    intro r h
    rw [dropToLastNl] at h
    cases hd : dropToLastNl t with
    | some s =>
      rw [hd] at h
      injection h with h
      subst h
      obtain ⟨l₁, hl₁⟩ := ih hd
      exact ⟨a :: l₁, by rw [List.cons_append, ← hl₁]⟩
    | none =>
      rw [hd] at h
      by_cases ha : a = '\n'
      · rw [if_pos ha] at h
        injection h with h
        subst h
        exact ⟨[], by rw [ha, List.nil_append]⟩
      · rw [if_neg ha] at h
        cases h

theorem collapseNl_cons_nl_some {rest w2 : List Char}
    (hm : dropToLastNl (rest.takeWhile isSpace) = some w2) :
    collapseNl ('\n' :: rest) = '\n' :: collapseNl (w2 ++ rest.dropWhile isSpace) := by
  rw [collapseNl, if_pos rfl]
  split
  · next w2' hm' =>
    rw [hm] at hm'
    injection hm' with hm'
    rw [hm']
  · next hm' =>
    rw [hm] at hm'
    cases hm'

theorem collapseNl_cons_nl_none {rest : List Char}
    (hm : dropToLastNl (rest.takeWhile isSpace) = none) :
    collapseNl ('\n' :: rest) = '\n' :: collapseNl rest := by
  rw [collapseNl, if_pos rfl]
  split
  · next w2' hm' =>
    rw [hm] at hm'
    cases hm'
  · next => rfl

theorem collapseNl_cons_other {c : Char} (hc : ¬c = '\n') (rest : List Char) :
    collapseNl (c :: rest) = c :: collapseNl rest := by
  rw [collapseNl, if_neg hc]

theorem collapseNl_ok :
    ∀ l : List Char, ∀ k, okFrom k l = true → okFrom k (collapseNl l) = true := by
  intro l
  induction l using collapseNl.induct with
  | case1 => intro k h; rw [collapseNl]; exact h
  | case2 rest w2 hm ih =>
    intro k h
    rw [collapseNl_cons_nl_some hm]
    have hnd : isDeco '\n' = false := rfl
    simp only [okFrom, hnd] at h ⊢
    simp only [Bool.false_eq_true, if_false] at h ⊢
    apply ih
    obtain ⟨l₁, hl₁⟩ := dropToLastNl_decomp hm
    have hsuf : w2 ++ rest.dropWhile isSpace <:+ rest := by
      refine ⟨l₁ ++ ['\n'], ?_⟩
      conv_rhs => rw [← List.takeWhile_append_dropWhile (p := isSpace) (l := rest)]
      rw [hl₁]
      simp
    exact okFrom_tail_suffix hsuf h
  | case3 rest hm ih =>
    intro k h
    rw [collapseNl_cons_nl_none hm]
    have hnd : isDeco '\n' = false := rfl
    simp only [okFrom, hnd] at h ⊢
    simp only [Bool.false_eq_true, if_false] at h ⊢
    exact ih 0 h
  | case4 c rest hc ih =>
    intro k h
    rw [collapseNl_cons_other hc]
    by_cases hdc : isDeco c
    · simp only [okFrom, hdc, if_true, Bool.and_eq_true, decide_eq_true_eq] at h ⊢
      exact ⟨h.1, ih (k + 1) h.2⟩
    · simp only [okFrom, hdc] at h ⊢
      simp only [Bool.false_eq_true, if_false] at h ⊢
      exact ih 0 h

theorem replaceNl_okFrom : ∀ (l : List Char) (k : Nat),
    okFrom k (replaceNl l) = okFrom k l := by
  intro l
  induction l with
  | nil => intro k; rfl
  | cons c rest ih =>
    intro k
    have ih' : ∀ k, okFrom k (rest.map fun c => if c = '\n' then ' ' else c)
        = okFrom k rest := by
      intro k
      have := ih k
      rwa [replaceNl] at this
    have hdeco : isDeco (if c = '\n' then ' ' else c) = isDeco c := by
      by_cases hc : c = '\n'
      · rw [if_pos hc, hc]
        decide
      · rw [if_neg hc]
    rw [replaceNl, List.map_cons]
    by_cases hdc : isDeco c
    · simp only [okFrom, hdeco, hdc, if_true]
      rw [ih' (k + 1)]
    · simp only [okFrom, hdeco, hdc]
      simp only [Bool.false_eq_true, if_false]
      rw [ih' 0]

theorem stripRuns_id_of_ok : ∀ l : List Char, okFrom 0 l = true → stripRuns l = l := by
  intro l
  induction l using stripRuns.induct with
  | case1 => intro _; rw [stripRuns]
  | case2 c rest hc hge ih =>
    intro h
    exfalso
    cases rest with
    | nil => simp at hge
    | cons a t =>
      by_cases ha : isDeco a
      · cases t with
        | nil =>
          rw [List.takeWhile_cons_of_pos ha] at hge
          simp at hge
        | cons b t' =>
          by_cases hb : isDeco b
          · simp [okFrom, hc, ha, hb] at h
          · rw [List.takeWhile_cons_of_pos ha, List.takeWhile_cons_of_neg hb] at hge
            simp at hge
      · rw [List.takeWhile_cons_of_neg ha] at hge
        simp at hge
  | case3 c rest hc hlt ih =>
    intro h
    rw [stripRuns, if_pos hc, if_neg hlt]
    have htail : okFrom 0 (rest.dropWhile isDeco) = true :=
      okFrom_tail_suffix ((List.dropWhile_suffix isDeco).trans (List.suffix_cons c rest)) h
    rw [ih htail, List.takeWhile_append_dropWhile]
  | case4 c rest hc ih =>
    intro h
    rw [stripRuns, if_neg hc]
    have hrest : okFrom 0 rest = true := by
      simpa [okFrom, hc] using h
    rw [ih hrest]

theorem collapseNl_id_of_no_nl : ∀ l : List Char, '\n' ∉ l → collapseNl l = l := by
  intro l
  induction l using collapseNl.induct with
  | case1 => intro _; rw [collapseNl]
  | case2 rest w2 hm ih =>
    intro h
    exact absurd (List.mem_cons_self '\n' rest) h
  | case3 rest hm ih =>
    intro h
    exact absurd (List.mem_cons_self '\n' rest) h
  | case4 c rest hc ih =>
    intro h
    rw [collapseNl_cons_other hc]
    rw [ih fun hm => h (List.mem_cons_of_mem c hm)]

theorem replaceNl_id_of_no_nl (l : List Char) (h : '\n' ∉ l) : replaceNl l = l := by
  have hmap : l.map (fun c => if c = '\n' then ' ' else c) = l.map id := by
    apply List.map_congr_left
    intro a ha
    have hne : ¬a = '\n' := fun he => h (he ▸ ha)
    rw [if_neg hne]
    rfl
  rw [replaceNl, hmap, List.map_id]

/-- C6: the normalizer `clean_and_prepare_text` is idempotent: its output
contains no newline (so steps 2 and 3 act as the identity on it) and no
run of 3 or more decorative characters (so step 1 acts as the identity on
it). -/
theorem clean_and_prepare_text_idempotent (text : List Char) :
    clean_and_prepare_text (clean_and_prepare_text text)
      = clean_and_prepare_text text := by
  set m := clean_and_prepare_text text with hm
  have hnl : '\n' ∉ m := replaceNl_no_nl _
  have hok : okFrom 0 m = true := by
    rw [hm, clean_and_prepare_text, replaceNl_okFrom]
    exact collapseNl_ok _ 0 (stripRuns_ok text)
  calc clean_and_prepare_text m = replaceNl (collapseNl (stripRuns m)) := rfl
    _ = replaceNl (collapseNl m) := by rw [stripRuns_id_of_ok m hok]
    _ = replaceNl m := by rw [collapseNl_id_of_no_nl m hnl]
    _ = m := replaceNl_id_of_no_nl m hnl

/-- C7 counterexample: step 1 of the normalizer does not leave underscores
unchanged — the source's character class `[-=_*]` contains the underscore,
so the run `"___"` is deleted: `stripRuns "___" = ""`, whereas the claim
requires it to be left unchanged. -/
theorem stripRuns_removes_underscores :
    stripRuns ['_', '_', '_'] = [] ∧ ([] : List Char) ≠ ['_', '_', '_'] := by
  refine ⟨?_, by decide⟩
  simp [stripRuns, isDeco]

/-- C7 amended: the normalizer's first step replaces every maximal run of
3 or more consecutive dash, equals-sign, underscore, or asterisk
characters with the empty string and leaves every other character (and
every such run of fewer than 3 characters) unchanged: `decoRuns`
decomposes the input into the maximal decorative runs and singletons of
the remaining characters (their concatenation is the input), and
`stripRuns` keeps exactly the groups of length < 3. -/
theorem stripRuns_decoRuns_spec (l : List Char) :
    (decoRuns l).flatten = l ∧
    stripRuns l = (decoRuns l).flatMap (fun g => if 3 ≤ g.length then [] else g) ∧
    ∀ g ∈ decoRuns l, g ≠ [] ∧ ((∀ d ∈ g, isDeco d = true) ∨ g.length = 1) := by
  induction l using decoRuns.induct with
  | case1 =>
    refine ⟨by rw [decoRuns]; rfl, by rw [stripRuns, decoRuns]; rfl, ?_⟩
    rw [decoRuns]
    simp
  | case2 c rest hc ih =>
    obtain ⟨ih1, ih2, ih3⟩ := ih
    refine ⟨?_, ?_, ?_⟩
    · rw [decoRuns, if_pos hc]
      simp only [List.flatten_cons, ih1, List.cons_append,
        List.takeWhile_append_dropWhile]
    · rw [decoRuns, if_pos hc, stripRuns, if_pos hc, List.flatMap_cons]
      simp only [List.length_cons]
      by_cases hge : (rest.takeWhile isDeco).length + 1 ≥ 3
      · rw [if_pos hge, if_pos (by omega)]
        rw [ih2, List.nil_append]
      · rw [if_neg hge, if_neg (by omega)]
        rw [ih2, List.cons_append]
    · intro g hg
      rw [decoRuns, if_pos hc] at hg
      rcases List.mem_cons.mp hg with h | h
      · subst h
        refine ⟨by simp, Or.inl ?_⟩
        intro d hd
        rcases List.mem_cons.mp hd with h | h
        · subst h; exact hc
        · exact List.mem_takeWhile_imp h
      · exact ih3 g h
  | case3 c rest hc ih =>
    obtain ⟨ih1, ih2, ih3⟩ := ih
    refine ⟨?_, ?_, ?_⟩
    · rw [decoRuns, if_neg hc]
      simp [ih1]
    · rw [decoRuns, if_neg hc, stripRuns, if_neg hc, List.flatMap_cons]
      rw [if_neg (by simp), ih2, List.cons_append, List.nil_append]
    · intro g hg
      rw [decoRuns, if_neg hc] at hg
      rcases List.mem_cons.mp hg with h | h
      · subst h
        exact ⟨by simp, Or.inr rfl⟩
      · exact ih3 g h

end DocToAudio
